import Mathlib

/-!
Shallow embedding of the group scheduling / voting core of the repository
(`app/services/group_scheduler.py`), and proofs of the specification claims
about it.

Modelling conventions:
* Timestamps are natural numbers counting minutes since the Unix epoch
  (1970-01-01 00:00, a Thursday).  Python's `datetime` comparisons become
  `Nat` comparisons; `weekday()` becomes day-number arithmetic.
* The module-global dict `_votes` becomes an explicit association list
  `Store` threaded through `process_vote` / `close_voting`.  Python dicts
  never hold a key twice, so update replaces the first (only) binding.
* Fallible external calls (`register_calendar_event`, which raises
  `ValueError` on failure, and the push-message notification) are modelled
  by oracles `registerOk : String → Bool` and `notifyOk : Bool`; a `false`
  outcome stands for the exception the Python code catches in its
  `except` block, which makes `close_voting` return `False`.
-/

namespace GroupScheduler

/-- One 30-minute availability slot, `{"start": …, "end": …, "available": …}`
in the source; `stop` models the `end` field. -/
structure Slot where
  start : Nat
  stop : Nat
  available : Bool
deriving DecidableEq, Repr

/-- A calendar event of some participant, with `stop` modelling `end`. -/
structure CalEvent where
  start : Nat
  stop : Nat
deriving DecidableEq, Repr

/-- A reported availability window `{"start": …, "end": …}`. -/
structure Window where
  start : Nat
  stop : Nat
deriving DecidableEq, Repr

/-- Python `current_dt.weekday()`: Monday = 0 … Sunday = 6.  Day 0
(1970-01-01) was a Thursday, weekday 3. -/
def weekday (t : Nat) : Nat :=
  (t / 1440 + 3) % 7

/-- `current_dt.replace(hour=9, minute=0, second=0, microsecond=0)`:
09:00 of the day containing minute `t`. -/
def dayStart (t : Nat) : Nat :=
  t / 1440 * 1440 + 540

/-- `current_dt.replace(hour=18, …)`: 18:00 of the day containing `t`. -/
def dayEnd (t : Nat) : Nat :=
  t / 1440 * 1440 + 1080

/-- The inner `while slot_start < day_end` loop: emit 30-minute slots,
all initially available. -/
def daySlotsAux (dayStop : Nat) (slotStart : Nat) : List Slot :=
  if slotStart < dayStop then
    ⟨slotStart, slotStart + 30, true⟩ :: daySlotsAux dayStop (slotStart + 30)
  else []
termination_by dayStop - slotStart
decreasing_by omega

/-- Slots of the working window 09:00–18:00 of the day containing `t`. -/
def daySlots (t : Nat) : List Slot :=
  daySlotsAux (dayEnd t) (dayStart t)

/-- The outer `while current_dt < end_dt` loop, with the iteration count
already computed: each day contributes its working-window slots when it is
a weekday (`weekday < 5`) and nothing otherwise. -/
def genSlotsAux : Nat → Nat → List Slot
  | 0, _ => []
  | n + 1, cur =>
      (if weekday cur < 5 then daySlots cur else []) ++ genSlotsAux n (cur + 1440)

/-- Number of iterations of `while current_dt < end_dt` stepping by one day. -/
def numDays (s e : Nat) : Nat :=
  (e - s + 1439) / 1440

/-- Slot generation of `find_available_times` over `[start_date, end_date)`. -/
def genSlots (s e : Nat) : List Slot :=
  genSlotsAux (numDays s e) s

/-- `if slot_start < event_end and slot_end > event_start: slot["available"] = False`. -/
def markSlot (ev : CalEvent) (sl : Slot) : Slot :=
  if sl.start < ev.stop ∧ sl.stop > ev.start then { sl with available := false } else sl

/-- The marking double loop: for every event of any participant, mark every
overlapping slot unavailable. -/
def markSlots (events : List CalEvent) (slots : List Slot) : List Slot :=
  events.foldl (fun acc ev => acc.map (markSlot ev)) slots

/-- `all_events`: the events of the organizer and all participants, flattened. -/
def allEvents (participants : List (List CalEvent)) : List CalEvent :=
  participants.flatten

/-- The default used by indexing helpers; indices are always in range where
it matters. -/
def dummySlot : Slot :=
  ⟨0, 0, false⟩

/-- The inner `for j in range(required)` check: `consecutive_available` is
false as soon as `i + j >= len(slots)` or the slot is unavailable. -/
def slotsAvailableFrom (slots : List Slot) (i required : Nat) : Bool :=
  (List.range required).all fun j =>
    decide (i + j < slots.length) && (slots.getD (i + j) dummySlot).available

/-- The sliding-window scan of `find_available_times`.

`required_consecutive_slots = duration_minutes // 30` (floor division).
When `required = 0` the Python loop runs until `i = len(slots)` and then
`slots[i]["start"]` raises `IndexError`, which the surrounding `except`
turns into the empty result; the `required = 0` branch models that.
For `required ≥ 1` the loop runs `i = 0 … len(slots) - required` and each
qualifying `i` contributes the window
`[slots[i]["start"], slots[i]["start"] + duration)`. -/
def scanWindows (slots : List Slot) (duration : Nat) : List Window :=
  let required := duration / 30
  if required = 0 then []
  else
    (List.range (slots.length + 1 - required)).filterMap fun i =>
      if slotsAvailableFrom slots i required then
        some ⟨(slots.getD i dummySlot).start, (slots.getD i dummySlot).start + duration⟩
      else none

/-- `find_available_times` with the external calendar reads already resolved
to each participant's event list: generate the slot grid, mark busy slots,
and scan for windows. -/
def find_available_times (participants : List (List CalEvent)) (s e duration : Nat) :
    List Window :=
  scanWindows (markSlots (allEvents participants) (genSlots s e)) duration

/-- A voting session `{"title": …, "options": […], "votes": {…}}`; option
start/end times stay the strings the postback payload carried. -/
structure VotingSession where
  title : String
  options : List (String × String)
  votes : List (String × Nat)
deriving DecidableEq, Repr

/-- The module-global `_votes` dict: keys are the strings
`f"{group_id}_{event_title}"`. -/
abbrev Store := List (String × VotingSession)

/-- `vote_key = f"{group_id}_{event_title}"`. -/
def voteKey (group_id event_title : String) : String :=
  group_id ++ "_" ++ event_title

/-- Dict lookup `_votes[vote_key]` (as an `Option`). -/
def storeLookup : Store → String → Option VotingSession
  | [], _ => none
  | (k, v) :: rest, key => if k = key then some v else storeLookup rest key

/-- Dict assignment `_votes[vote_key] = session`: replace the binding in
place when the key is present, append otherwise. -/
def storeInsert : Store → String → VotingSession → Store
  | [], k, v => [(k, v)]
  | (k', v') :: rest, k, v =>
      if k' = k then (k, v) :: rest else (k', v') :: storeInsert rest k v

/-- `del _votes[vote_key]`: drop the binding of `k` (dict keys are unique,
so removing every binding of `k` is the same thing). -/
def storeErase : Store → String → Store
  | [], _ => []
  | (k', v') :: rest, k =>
      if k' = k then storeErase rest k else (k', v') :: storeErase rest k

/-- Dict assignment `votes[user_id] = option_index`: overwrite the user's
previous ballot or append a new one. -/
def updateVote : List (String × Nat) → String → Nat → List (String × Nat)
  | [], u, idx => [(u, idx)]
  | (u', i') :: rest, u, idx =>
      if u' = u then (u, idx) :: rest else (u', i') :: updateVote rest u idx

/-- The per-session body of `process_vote`: append one option when the index
is not yet a position of `options`, then record the ballot. -/
def applyVote (sess : VotingSession) (u : String) (idx : Nat) (s e : String) :
    VotingSession :=
  let sess :=
    if sess.options.length ≤ idx then
      { sess with options := sess.options ++ [(s, e)] }
    else sess
  { sess with votes := updateVote sess.votes u idx }

/-- `process_vote(user_id, group_id, event_title, option_index, start, end)`:
resolve or create the session for the key, apply the ballot, store it back.
Always returns `True` (nothing in the body raises). -/
def process_vote (store : Store) (user_id group_id event_title : String)
    (option_index : Nat) (start_time end_time : String) : Bool × Store :=
  let key := voteKey group_id event_title
  let sess := (storeLookup store key).getD ⟨event_title, [], []⟩
  (true, storeInsert store key (applyVote sess user_id option_index start_time end_time))

/-- One step of `option_counts[option_index] += 1`; `none` is the
`IndexError` a ballot outside `range(len(options))` raises. -/
def bumpCount (counts : Option (List Nat)) (idx : Nat) : Option (List Nat) :=
  counts.bind fun cs =>
    if idx < cs.length then some (cs.set idx (cs.getD idx 0 + 1)) else none

/-- `option_counts = [0] * len(options)` followed by the tally loop over the
ballots. -/
def tallyCounts (numOptions : Nat) (votes : List (String × Nat)) : Option (List Nat) :=
  votes.foldl (fun acc p => bumpCount acc p.2) (some (List.replicate numOptions 0))

/-- Python `max(l)`: raises `ValueError` on an empty list (modelled as
`none`); on a non-empty list of naturals it is the fold of `Nat.max` from 0. -/
def listMax : List Nat → Option Nat
  | [] => none
  | l => some (l.foldl Nat.max 0)

/-- The tally-and-resolve part of `close_voting`: counts, then
`max_votes = max(option_counts)`, then
`winning_indices = [i for i, c in enumerate(option_counts) if c == max_votes]`
and `winning_index = winning_indices[0]`.  Any raised exception is `none`. -/
def closeTally (sess : VotingSession) : Option (List Nat × Nat) :=
  (tallyCounts sess.options.length sess.votes).bind fun counts =>
  (listMax counts).bind fun maxVotes =>
  match (List.range counts.length).filter (fun i => counts.getD i 0 = maxVotes) with
  | [] => none
  | w :: _ => some (counts, w)

/-- One `register_calendar_event(user_id=…, start_time=…, end_time=…, title=…)`
call made during finalization. -/
structure RegisterCall where
  user : String
  start : String
  stop : String
  title : String
deriving DecidableEq, Repr

/-- `close_voting(group_id, event_title)`.  Returns the boolean result, the
store after the call, and the per-user register calls whose event creation
succeeded (the commit loop stops at the first user whose
`register_calendar_event` raises).  The notification (date formatting plus
`push_message`) is a single oracle `notifyOk`; only after it succeeds is
`del _votes[vote_key]` reached and `True` returned. -/
def close_voting (store : Store) (group_id event_title : String)
    (registerOk : String → Bool) (notifyOk : Bool) :
    Bool × Store × List RegisterCall :=
  let key := voteKey group_id event_title
  match storeLookup store key with
  | none => (false, store, [])
  | some sess =>
    match closeTally sess with
    | none => (false, store, [])
    | some (_, w) =>
      match sess.options.get? w with
      | none => (false, store, [])
      | some winning =>
        let users := sess.votes.map Prod.fst
        let calls := (users.takeWhile registerOk).map fun u =>
          RegisterCall.mk u winning.1 winning.2 event_title
        if users.all registerOk then
          if notifyOk then (true, storeErase store key, calls)
          else (false, store, calls)
        else (false, store, calls)

/-! ### Tally lemmas -/

/-- Folding the ballots into the count vector succeeds when every ballot is
in range, keeps the vector's length, and adds to `counts[i]` exactly the
number of ballots equal to `i`. -/
theorem tallyFold_spec (votes : List (String × Nat)) :
    ∀ counts : List Nat, (∀ p ∈ votes, p.2 < counts.length) →
      ∃ counts', votes.foldl (fun acc p => bumpCount acc p.2) (some counts) = some counts' ∧
        counts'.length = counts.length ∧
        ∀ i, i < counts.length →
          counts'.getD i 0 = counts.getD i 0 + (votes.filter (fun p => p.2 = i)).length := by
  induction votes with
  | nil => exact fun counts _ => ⟨counts, rfl, rfl, by simp⟩
  | cons p rest ih =>
    intro counts h
    have hp : p.2 < counts.length := h p (List.mem_cons_self _ _)
    obtain ⟨counts', hfold, hlen, hval⟩ :=
      ih (counts.set p.2 (counts.getD p.2 0 + 1)) (by
        intro q hq
        rw [List.length_set]
        exact h q (List.mem_cons_of_mem _ hq))
    rw [List.length_set] at hlen hval
    refine ⟨counts', ?_, hlen, ?_⟩
    · rw [List.foldl_cons]
      have hstep : bumpCount (some counts) p.2
          = some (counts.set p.2 (counts.getD p.2 0 + 1)) := by
        simp [bumpCount, hp]
      rw [hstep]
      exact hfold
    · intro i hi
      rw [hval i hi]
      have hset : (counts.set p.2 (counts.getD p.2 0 + 1)).getD i 0
          = if p.2 = i then counts.getD i 0 + 1 else counts.getD i 0 := by
        rw [List.getD_eq_getElem?_getD, List.getD_eq_getElem?_getD, List.getElem?_set]
        by_cases hpi : p.2 = i
        · subst hpi
          simp [hp]
        · simp [hpi]
      rw [hset, List.filter_cons]
      by_cases hpi : p.2 = i
      · rw [if_pos hpi, if_pos (by simpa using hpi), List.length_cons]
        omega
      · rw [if_neg hpi, if_neg (by simpa using hpi)]

/-- `List.foldl Nat.max a` dominates the accumulator and every element, and
is one of them. -/
theorem foldl_max_spec (l : List Nat) :
    ∀ a : Nat, a ≤ l.foldl Nat.max a ∧ (∀ x ∈ l, x ≤ l.foldl Nat.max a) ∧
      (l.foldl Nat.max a = a ∨ l.foldl Nat.max a ∈ l) := by
  induction l with
  | nil => intro a; simp
  | cons b t ih =>
    intro a
    obtain ⟨h1, h2, h3⟩ := ih (Nat.max a b)
    rw [List.foldl_cons]
    refine ⟨le_trans (Nat.le_max_left a b) h1, ?_, ?_⟩
    · intro x hx
      rcases List.mem_cons.mp hx with rfl | hx
      · exact le_trans (Nat.le_max_right a _) h1
      · exact h2 x hx
    · rcases h3 with h | h
      · rcases Nat.le_total a b with hab | hba
        · right
          have hb : List.foldl Nat.max (Nat.max a b) t = b := by
            rw [h]; exact Nat.max_eq_right hab
          rw [hb]
          exact List.mem_cons_self _ _
        · left
          rw [h]
          exact Nat.max_eq_left hba
      · right; exact List.mem_cons_of_mem _ h

/-- Python `max` on a non-empty list of naturals: the maximum, attained. -/
theorem listMax_spec (l : List Nat) (hne : l ≠ []) :
    ∃ m, listMax l = some m ∧ m ∈ l ∧ ∀ x ∈ l, x ≤ m := by
  match l, hne with
  | a :: t, _ =>
    obtain ⟨h1, h2, h3⟩ := foldl_max_spec (a :: t) 0
    refine ⟨(a :: t).foldl Nat.max 0, rfl, ?_, h2⟩
    rcases h3 with h | h
    · have ha : a ≤ (a :: t).foldl Nat.max 0 := h2 a (List.mem_cons_self _ _)
      rw [h] at ha ⊢
      have : a = 0 := Nat.le_zero.mp ha
      rw [← this]
      exact List.mem_cons_self _ _
    · exact h

/-- The head of `(List.range n).filter p` is the least `i < n` with `p i`. -/
theorem range_filter_head_spec (n : Nat) (p : Nat → Bool) (w : Nat) (t : List Nat)
    (h : (List.range n).filter p = w :: t) :
    w < n ∧ p w = true ∧ ∀ i, i < w → p i = false := by
  rw [List.filter_eq_cons_iff] at h
  obtain ⟨l1, l2, hsplit, hl1, hpw, -⟩ := h
  have hlen : l1.length < n := by
    have := congrArg List.length hsplit
    simp only [List.length_range, List.length_append, List.length_cons] at this
    omega
  have htake : l1 = List.range l1.length := by
    have h2 : (List.range n).take l1.length = l1 := by
      rw [hsplit]; exact List.take_left _ _
    rw [List.take_range, inf_eq_left.mpr hlen.le] at h2
    exact h2.symm
  have hw : w = l1.length := by
    have h1 : (List.range n)[l1.length]? = some w := by
      rw [hsplit, List.getElem?_append_right (le_refl _), Nat.sub_self]
      simp
    rw [List.getElem?_range hlen] at h1
    exact (Option.some_inj.mp h1).symm
  subst hw
  refine ⟨hlen, hpw, fun i hi => ?_⟩
  have : i ∈ l1 := by
    rw [htake]
    exact List.mem_range.mpr hi
  simpa using hl1 i this

/-- C1.  Whenever every ballot is in range and there is at least one option,
`close_voting`'s tally resolves: `counts[i]` is the number of ballots equal
to `i` (zero-ballot options count as zero, not absent, since the counts
vector has exactly one entry per option), and the winner is the option with
the lowest index among all options sharing the maximum count. -/
theorem claim_C1_tally_and_tiebreak (sess : VotingSession)
    (hopts : sess.options ≠ [])
    (hin : ∀ p ∈ sess.votes, p.2 < sess.options.length) :
    ∃ counts w, closeTally sess = some (counts, w) ∧
      counts.length = sess.options.length ∧
      (∀ i, i < counts.length →
        counts.getD i 0 = (sess.votes.filter (fun p => p.2 = i)).length) ∧
      w < counts.length ∧
      (∀ i, i < counts.length → counts.getD i 0 ≤ counts.getD w 0) ∧
      (∀ i, i < w → counts.getD i 0 < counts.getD w 0) := by
  obtain ⟨counts, hfold, hlen, hval⟩ :=
    tallyFold_spec sess.votes (List.replicate sess.options.length 0) (by
      intro p hp
      rw [List.length_replicate]
      exact hin p hp)
  rw [List.length_replicate] at hlen hval
  have hval' : ∀ i, i < counts.length →
      counts.getD i 0 = (sess.votes.filter (fun p => p.2 = i)).length := by
    intro i hi
    have hi' : i < sess.options.length := hlen ▸ hi
    have hrep : (List.replicate sess.options.length (0 : Nat)).getD i 0 = 0 := by
      rw [List.getD_eq_getElem?_getD, List.getElem?_replicate]
      simp [hi']
    have h2 := hval i hi'
    rw [hrep] at h2
    simpa using h2
  have hcne : counts ≠ [] := by
    intro hc
    rw [hc] at hlen
    exact hopts (List.eq_nil_of_length_eq_zero hlen.symm)
  obtain ⟨m, hmax, hmem, hub⟩ := listMax_spec counts hcne
  have hattained : ∃ j, j < counts.length ∧ counts.getD j 0 = m := by
    obtain ⟨j, hj, hje⟩ := List.getElem_of_mem hmem
    exact ⟨j, hj, by rw [List.getD_eq_getElem _ _ hj]; exact hje⟩
  have hfilter : (List.range counts.length).filter (fun i => counts.getD i 0 = m) ≠ [] := by
    intro hnil
    rw [List.filter_eq_nil_iff] at hnil
    obtain ⟨j, hj, hje⟩ := hattained
    exact hnil j (List.mem_range.mpr hj) (decide_eq_true hje)
  match hsplit : (List.range counts.length).filter (fun i => counts.getD i 0 = m) with
  | [] => exact absurd hsplit hfilter
  | w :: t =>
    obtain ⟨hwlt, hpw, hleast⟩ := range_filter_head_spec _ _ _ _ hsplit
    have hwm : counts.getD w 0 = m := by simpa using hpw
    refine ⟨counts, w, ?_, hlen, hval', hwlt, ?_, ?_⟩
    · show (tallyCounts sess.options.length sess.votes).bind _ = _
      rw [show tallyCounts sess.options.length sess.votes = some counts from hfold]
      rw [Option.some_bind, hmax, Option.some_bind, hsplit]
    · intro i hi
      rw [hwm]
      exact hub _ (by
        rw [List.getD_eq_getElem _ _ hi]
        exact List.getElem_mem hi)
    · intro i hi
      have hine : counts.getD i 0 ≠ m := by
        have := hleast i hi
        simpa using this
      have hile : counts.getD i 0 ≤ m :=
        hub _ (by
          rw [List.getD_eq_getElem _ _ (lt_trans hi hwlt)]
          exact List.getElem_mem (lt_trans hi hwlt))
      rw [hwm]
      omega

/-- C1 at the spec's concrete scenario: ballots `{A:0, B:1, C:0}` over two
options tally to counts `[2, 1]` and resolve to winner option `0`. -/
theorem claim_C1_witness :
    closeTally ⟨"T", [("s0", "e0"), ("s1", "e1")], [("A", 0), ("B", 1), ("C", 0)]⟩
        = some ([2, 1], 0) ∧
    (∃ counts w,
      closeTally ⟨"T", [("s0", "e0"), ("s1", "e1")], [("A", 0), ("B", 1), ("C", 0)]⟩
          = some (counts, w) ∧
      counts.length = 2 ∧
      (∀ i, i < counts.length →
        counts.getD i 0 =
          (([("A", 0), ("B", 1), ("C", 0)] : List (String × Nat)).filter
            (fun p => p.2 = i)).length) ∧
      w < counts.length ∧
      (∀ i, i < counts.length → counts.getD i 0 ≤ counts.getD w 0) ∧
      (∀ i, i < w → counts.getD i 0 < counts.getD w 0)) :=
  ⟨by decide,
   claim_C1_tally_and_tiebreak
     ⟨"T", [("s0", "e0"), ("s1", "e1")], [("A", 0), ("B", 1), ("C", 0)]⟩
     (by decide) (by decide)⟩

/-! ### Store lemmas -/

theorem storeLookup_erase_self (store : Store) (k : String) :
    storeLookup (storeErase store k) k = none := by
  induction store with
  | nil => rfl
  | cons p rest ih =>
    obtain ⟨a, b⟩ := p
    by_cases hk : a = k
    · simpa [storeErase, hk] using ih
    · simpa [storeErase, storeLookup, hk] using ih

theorem storeLookup_erase_ne (store : Store) (k k' : String) (h : k ≠ k') :
    storeLookup (storeErase store k) k' = storeLookup store k' := by
  induction store with
  | nil => rfl
  | cons p rest ih =>
    obtain ⟨a, b⟩ := p
    by_cases hk : a = k
    · subst hk
      simpa [storeErase, storeLookup, h] using ih
    · by_cases hk' : a = k'
      · subst hk'
        simp [storeErase, storeLookup, hk]
      · simpa [storeErase, storeLookup, hk, hk'] using ih

theorem storeLookup_insert_self (store : Store) (k : String) (v : VotingSession) :
    storeLookup (storeInsert store k v) k = some v := by
  induction store with
  | nil => simp [storeInsert, storeLookup]
  | cons p rest ih =>
    obtain ⟨a, b⟩ := p
    by_cases hk : a = k
    · simp [storeInsert, storeLookup, hk]
    · simpa [storeInsert, storeLookup, hk] using ih

theorem storeLookup_insert_ne (store : Store) (k k' : String) (v : VotingSession)
    (h : k ≠ k') :
    storeLookup (storeInsert store k v) k' = storeLookup store k' := by
  induction store with
  | nil => simp [storeInsert, storeLookup, h]
  | cons p rest ih =>
    obtain ⟨a, b⟩ := p
    by_cases hk : a = k
    · subst hk
      simp [storeInsert, storeLookup, h]
    · by_cases hk' : a = k'
      · subst hk'
        simp [storeInsert, storeLookup, hk]
      · simpa [storeInsert, storeLookup, hk, hk'] using ih

/-! ### `close_voting` case analysis -/

/-- Either `close_voting` succeeds and the store is the old store with the
session erased, or it fails and the store is untouched. -/
theorem close_voting_cases (store : Store) (g t : String) (regOk : String → Bool)
    (nOk : Bool) :
    ((close_voting store g t regOk nOk).1 = true ∧
      (close_voting store g t regOk nOk).2.1 = storeErase store (voteKey g t)) ∨
    ((close_voting store g t regOk nOk).1 = false ∧
      (close_voting store g t regOk nOk).2.1 = store) := by
  simp only [close_voting]
  cases hl : storeLookup store (voteKey g t) with
  | none => right; exact ⟨rfl, rfl⟩
  | some sess =>
    dsimp only
    cases ht : closeTally sess with
    | none => right; exact ⟨rfl, rfl⟩
    | some cw =>
      obtain ⟨counts, w⟩ := cw
      dsimp only
      cases hg : sess.options.get? w with
      | none => right; exact ⟨rfl, rfl⟩
      | some winning =>
        dsimp only
        by_cases hall : (sess.votes.map Prod.fst).all regOk
        · by_cases hn : nOk
          · left; simp [hall, hn]
          · right; simp [hall, hn]
        · right; simp [hall]

/-- C3.  `close_voting` returns success exactly when teardown completes:
on success the store is the old store with the session deleted, and on any
failure (missing session, exception in tally, commit or notification) the
store — hence the session's options and ballots — is exactly as before. -/
theorem claim_C3_atomic_failure (store : Store) (g t : String)
    (regOk : String → Bool) (nOk : Bool) :
    ((close_voting store g t regOk nOk).1 = true ∧
      (close_voting store g t regOk nOk).2.1 = storeErase store (voteKey g t) ∧
      storeLookup (close_voting store g t regOk nOk).2.1 (voteKey g t) = none) ∨
    ((close_voting store g t regOk nOk).1 = false ∧
      (close_voting store g t regOk nOk).2.1 = store) := by
  rcases close_voting_cases store g t regOk nOk with ⟨hok, hst⟩ | ⟨hok, hst⟩
  · left
    refine ⟨hok, hst, ?_⟩
    rw [hst]
    exact storeLookup_erase_self store (voteKey g t)
  · right; exact ⟨hok, hst⟩

/-- Once an out-of-range ballot has raised, the fold stays failed. -/
theorem tallyFold_none (votes : List (String × Nat)) :
    votes.foldl (fun acc p => bumpCount acc p.2) none = none := by
  induction votes with
  | nil => rfl
  | cons p rest ih => simpa [bumpCount] using ih

/-- The tally fold preserves the length of the count vector. -/
theorem tallyFold_length (votes : List (String × Nat)) :
    ∀ acc cs : List Nat,
      votes.foldl (fun acc p => bumpCount acc p.2) (some acc) = some cs →
      cs.length = acc.length := by
  induction votes with
  | nil =>
    intro acc cs h
    cases h
    rfl
  | cons p rest ih =>
    intro acc cs h
    rw [List.foldl_cons] at h
    by_cases hp : p.2 < acc.length
    · rw [show bumpCount (some acc) p.2 = some (acc.set p.2 (acc.getD p.2 0 + 1)) from by
        simp [bumpCount, hp]] at h
      have := ih _ _ h
      rwa [List.length_set] at this
    · rw [show bumpCount (some acc) p.2 = none from by simp [bumpCount, hp],
        tallyFold_none] at h
      exact absurd h (by simp)

/-- A ballot at or beyond the length of the count vector makes the tally
raise (`IndexError`). -/
theorem tallyFold_oob (votes : List (String × Nat)) :
    ∀ acc : List Nat, (∃ p ∈ votes, acc.length ≤ p.2) →
      votes.foldl (fun acc p => bumpCount acc p.2) (some acc) = none := by
  induction votes with
  | nil =>
    intro acc hex
    obtain ⟨p, hp, -⟩ := hex
    exact absurd hp (List.not_mem_nil p)
  | cons q rest ih =>
    intro acc hex
    rw [List.foldl_cons]
    by_cases hq : q.2 < acc.length
    · rw [show bumpCount (some acc) q.2 = some (acc.set q.2 (acc.getD q.2 0 + 1)) from by
        simp [bumpCount, hq]]
      apply ih
      obtain ⟨p, hp, hple⟩ := hex
      rcases List.mem_cons.mp hp with rfl | hp'
      · exact absurd hple (Nat.not_le.mpr hq)
      · exact ⟨p, hp', by rwa [List.length_set]⟩
    · rw [show bumpCount (some acc) q.2 = none from by simp [bumpCount, hq],
        tallyFold_none]

/-- A session with an out-of-range ballot makes the whole tally raise. -/
theorem closeTally_oob (sess : VotingSession)
    (hex : ∃ p ∈ sess.votes, sess.options.length ≤ p.2) :
    closeTally sess = none := by
  have : tallyCounts sess.options.length sess.votes = none := by
    apply tallyFold_oob
    obtain ⟨p, hp, hple⟩ := hex
    exact ⟨p, hp, by rwa [List.length_replicate]⟩
  simp [closeTally, this]

/-- A successful tally's winner is a position of the option list. -/
theorem closeTally_winner_lt (sess : VotingSession) (counts : List Nat) (w : Nat)
    (h : closeTally sess = some (counts, w)) :
    counts.length = sess.options.length ∧ w < sess.options.length := by
  unfold closeTally at h
  cases hf : tallyCounts sess.options.length sess.votes with
  | none => rw [hf] at h; exact absurd h (by simp)
  | some cs =>
    rw [hf, Option.some_bind] at h
    cases hm : listMax cs with
    | none => rw [hm] at h; exact absurd h (by simp)
    | some m =>
      rw [hm, Option.some_bind] at h
      have hlen : cs.length = sess.options.length := by
        have := tallyFold_length sess.votes _ _ hf
        rwa [List.length_replicate] at this
      cases hs : (List.range cs.length).filter (fun i => cs.getD i 0 = m) with
      | nil => rw [hs] at h; exact absurd h (by simp)
      | cons w' t' =>
        rw [hs] at h
        obtain ⟨hwlt, -, -⟩ := range_filter_head_spec _ _ _ _ hs
        have hcs : cs = counts ∧ w' = w := by
          constructor <;> [exact (Prod.mk.injEq _ _ _ _ ▸ Option.some_inj.mp h).1;
            exact (Prod.mk.injEq _ _ _ _ ▸ Option.some_inj.mp h).2]
        obtain ⟨rfl, rfl⟩ := hcs
        exact ⟨hlen, hlen ▸ hwlt⟩

/-- When the session exists and `close_voting` succeeds, the tally and the
winning-option lookup succeeded, every per-user commit and the notification
succeeded, the session was erased, and exactly one register call was made
per ballot, at the winning window, titled with the event title. -/
theorem close_voting_success (store : Store) (g t : String) (regOk : String → Bool)
    (nOk : Bool) (sess : VotingSession)
    (hl : storeLookup store (voteKey g t) = some sess)
    (hok : (close_voting store g t regOk nOk).1 = true) :
    ∃ counts w winning, closeTally sess = some (counts, w) ∧
      sess.options.get? w = some winning ∧
      (∀ p ∈ sess.votes, regOk p.1 = true) ∧ nOk = true ∧
      close_voting store g t regOk nOk =
        (true, storeErase store (voteKey g t),
          sess.votes.map fun p => RegisterCall.mk p.1 winning.1 winning.2 t) := by
  revert hok
  simp only [close_voting, hl]
  cases ht : closeTally sess with
  | none => intro hok; exact absurd hok (by simp)
  | some cw =>
    obtain ⟨counts, w⟩ := cw
    dsimp only
    cases hg : sess.options.get? w with
    | none => intro hok; exact absurd hok (by simp)
    | some winning =>
      dsimp only
      by_cases hall : (sess.votes.map Prod.fst).all regOk
      · by_cases hn : nOk
        · intro _
          refine ⟨counts, w, winning, rfl, hg, ?_, hn, ?_⟩
          · intro p hp
            exact List.all_eq_true.mp hall p.1 (List.mem_map_of_mem Prod.fst hp)
          · have htw : (sess.votes.map Prod.fst).takeWhile regOk
                = sess.votes.map Prod.fst :=
              List.takeWhile_eq_self_iff.mpr (List.all_eq_true.mp hall)
            simp [hall, hn, htw, List.map_map, Function.comp]
        · intro hok; exact absurd hok (by simp [hall, hn])
      · intro hok; exact absurd hok (by simp [hall])

/-! ### C4: commit failures abort the close -/

/-- A concrete session whose tally succeeds: X voted 0, Y voted 1. -/
def sessXY : VotingSession :=
  ⟨"T", [("s0", "e0"), ("s1", "e1")], [("X", 0), ("Y", 1)]⟩

/-- A store holding only `sessXY` under group `g`, title `T`. -/
def storeXY : Store :=
  [(voteKey "g" "T", sessXY)]

/-- Commit oracle: X's event creation succeeds, everyone else's raises. -/
def regOkOnlyX : String → Bool :=
  fun u => u = "X"

/-- C4 counterexample.  The tally of `sessXY` succeeds, yet with Y's commit
raising, `close_voting` returns failure and the session is NOT deleted from
the store — deletion is not unconditional after a successful tally.  The
call list shows X's event was still created (partial commit). -/
theorem claim_C4_counterexample :
    closeTally sessXY = some ([1, 1], 0) ∧
    (close_voting storeXY "g" "T" regOkOnlyX true).1 = false ∧
    (close_voting storeXY "g" "T" regOkOnlyX true).2.1 = storeXY ∧
    storeLookup (close_voting storeXY "g" "T" regOkOnlyX true).2.1 (voteKey "g" "T")
        = some sessXY ∧
    (close_voting storeXY "g" "T" regOkOnlyX true).2.2
        = [⟨"X", "s0", "e0", "T"⟩] := by
  decide

/-- C4 amended.  When the tally succeeds but some user's
`register_calendar_event` raises, the commit loop is aborted: the users
before the first failure keep their created events (no retry, no rollback),
but `close_voting` returns failure and the session is NOT torn down — the
store is unchanged. -/
theorem claim_C4_amended_commit_abort (store : Store) (g t : String)
    (regOk : String → Bool) (nOk : Bool) (sess : VotingSession)
    (hl : storeLookup store (voteKey g t) = some sess)
    (counts : List Nat) (w : Nat)
    (ht : closeTally sess = some (counts, w))
    (hfail : ∃ p ∈ sess.votes, regOk p.1 = false) :
    (close_voting store g t regOk nOk).1 = false ∧
    (close_voting store g t regOk nOk).2.1 = store ∧
    ∃ winning, sess.options.get? w = some winning ∧
      (close_voting store g t regOk nOk).2.2 =
        ((sess.votes.map Prod.fst).takeWhile regOk).map
          (fun u => RegisterCall.mk u winning.1 winning.2 t) := by
  have hw : w < sess.options.length := (closeTally_winner_lt sess counts w ht).2
  have hg : sess.options.get? w = some (sess.options.get ⟨w, hw⟩) := by
    rw [List.get?_eq_getElem?, List.getElem?_eq_getElem hw]
    rfl
  have hall : (sess.votes.map Prod.fst).all regOk = false := by
    rw [List.all_eq_false]
    obtain ⟨p, hp, hpf⟩ := hfail
    exact ⟨p.1, List.mem_map_of_mem Prod.fst hp, by simp [hpf]⟩
  have hg' : sess.options[w]? = some (sess.options.get ⟨w, hw⟩) := by
    rw [List.getElem?_eq_getElem hw]
    rfl
  refine ⟨?_, ?_, sess.options.get ⟨w, hw⟩, hg, ?_⟩ <;>
    simp [close_voting, hl, ht, hg', hall]

/-- C4 amended, witnessed at the concrete failing scenario. -/
theorem claim_C4_amended_witness :
    (close_voting storeXY "g" "T" regOkOnlyX true).1 = false ∧
    (close_voting storeXY "g" "T" regOkOnlyX true).2.1 = storeXY ∧
    ∃ winning, sessXY.options.get? 0 = some winning ∧
      (close_voting storeXY "g" "T" regOkOnlyX true).2.2 =
        ((sessXY.votes.map Prod.fst).takeWhile regOkOnlyX).map
          (fun u => RegisterCall.mk u winning.1 winning.2 "T") :=
  claim_C4_amended_commit_abort storeXY "g" "T" regOkOnlyX true sessXY (by decide)
    [1, 1] 0 (by decide) ⟨("Y", 1), by decide, by decide⟩

/-! ### C8: commit fan-out -/

/-- In a list without duplicates, filtering for one element keeps exactly
one entry when it occurs and none otherwise. -/
theorem filter_eq_length_nodup (l : List String) (hnd : l.Nodup) (u : String) :
    (l.filter (fun x => x = u)).length = if u ∈ l then 1 else 0 := by
  induction l with
  | nil => simp
  | cons a rest ih =>
    rw [List.nodup_cons] at hnd
    obtain ⟨ha, hrest⟩ := hnd
    rw [List.filter_cons]
    by_cases hau : a = u
    · subst hau
      rw [if_pos (by simp), List.length_cons, ih hrest, if_neg ha,
        if_pos (List.mem_cons_self a rest)]
    · rw [if_neg (by simp [hau]), ih hrest]
      by_cases hu : u ∈ rest
      · rw [if_pos hu, if_pos (List.mem_cons_of_mem a hu)]
      · rw [if_neg hu, if_neg (by
          intro hc
          rcases List.mem_cons.mp hc with hc' | hc'
          · exact hau hc'.symm
          · exact hu hc')]

/-- C8.  When `close_voting` succeeds on an existing session (ballot keys
are unique, as Python dict keys are), exactly one calendar event is
registered for every distinct user that cast any ballot — whatever option
that user voted for — at the winning window, titled with the event title. -/
theorem claim_C8_commit_fanout (store : Store) (g t : String) (regOk : String → Bool)
    (nOk : Bool) (sess : VotingSession)
    (hl : storeLookup store (voteKey g t) = some sess)
    (hnd : (sess.votes.map Prod.fst).Nodup)
    (hok : (close_voting store g t regOk nOk).1 = true) :
    ∃ counts w winning, closeTally sess = some (counts, w) ∧
      sess.options.get? w = some winning ∧
      (close_voting store g t regOk nOk).2.2 =
        sess.votes.map (fun p => RegisterCall.mk p.1 winning.1 winning.2 t) ∧
      ∀ u : String,
        (((close_voting store g t regOk nOk).2.2).filter
            (fun c => c.user = u)).length =
          if u ∈ sess.votes.map Prod.fst then 1 else 0 := by
  obtain ⟨counts, w, winning, ht, hg, -, -, heq⟩ :=
    close_voting_success store g t regOk nOk sess hl hok
  have hcalls : (close_voting store g t regOk nOk).2.2 =
      sess.votes.map fun p => RegisterCall.mk p.1 winning.1 winning.2 t := by
    rw [heq]
  refine ⟨counts, w, winning, ht, hg, hcalls, ?_⟩
  intro u
  rw [hcalls]
  have h1 : ((sess.votes.map fun p => RegisterCall.mk p.1 winning.1 winning.2 t).filter
      (fun c => c.user = u)).length
      = ((sess.votes.map Prod.fst).filter (fun x => x = u)).length := by
    rw [List.filter_map, List.filter_map, List.length_map, List.length_map]
    rfl
  rw [h1, filter_eq_length_nodup _ hnd u]

/-- C8, witnessed: closing `sessXY` with both commits and the notification
succeeding registers one event for X and one for Y at the winning window. -/
theorem claim_C8_witness :
    ∃ counts w winning, closeTally sessXY = some (counts, w) ∧
      sessXY.options.get? w = some winning ∧
      (close_voting storeXY "g" "T" (fun _ => true) true).2.2 =
        sessXY.votes.map (fun p => RegisterCall.mk p.1 winning.1 winning.2 "T") ∧
      ∀ u : String,
        (((close_voting storeXY "g" "T" (fun _ => true) true).2.2).filter
            (fun c => c.user = u)).length =
          if u ∈ sessXY.votes.map Prod.fst then 1 else 0 :=
  claim_C8_commit_fanout storeXY "g" "T" (fun _ => true) true sessXY
    (by decide) (by decide) (by decide)

/-! ### C9: teardown finality -/

/-- C9.  After a successful `close_voting` for a key, a second
`close_voting` on the same key fails and leaves everything alone, and a
subsequent `process_vote` builds its session from the fresh
`{"title": event_title, "options": [], "votes": {}}` — a brand-new session
with empty options and ballots, not the old one. -/
theorem claim_C9_teardown_finality (store : Store) (g t : String)
    (regOk : String → Bool) (nOk : Bool)
    (hok : (close_voting store g t regOk nOk).1 = true)
    (regOk' : String → Bool) (nOk' : Bool) (u : String) (idx : Nat) (s e : String) :
    storeLookup (close_voting store g t regOk nOk).2.1 (voteKey g t) = none ∧
    close_voting ((close_voting store g t regOk nOk).2.1) g t regOk' nOk'
        = (false, (close_voting store g t regOk nOk).2.1, []) ∧
    (process_vote ((close_voting store g t regOk nOk).2.1) u g t idx s e).1 = true ∧
    storeLookup (process_vote ((close_voting store g t regOk nOk).2.1) u g t idx s e).2
        (voteKey g t)
        = some (applyVote ⟨t, [], []⟩ u idx s e) := by
  rcases close_voting_cases store g t regOk nOk with ⟨-, hst⟩ | ⟨hf, -⟩
  · rw [hst]
    have hnone : storeLookup (storeErase store (voteKey g t)) (voteKey g t) = none :=
      storeLookup_erase_self store (voteKey g t)
    refine ⟨hnone, ?_, rfl, ?_⟩
    · simp [close_voting, hnone]
    · show storeLookup
          (storeInsert _ (voteKey g t)
            (applyVote ((storeLookup _ (voteKey g t)).getD ⟨t, [], []⟩) u idx s e))
          (voteKey g t) = _
      rw [hnone]
      exact storeLookup_insert_self _ _ _
  · rw [hok] at hf
    exact absurd hf (by simp)

/-- C9, witnessed: close the concrete poll, then reclose and revote. -/
theorem claim_C9_witness :
    storeLookup (close_voting storeXY "g" "T" (fun _ => true) true).2.1
        (voteKey "g" "T") = none ∧
    close_voting ((close_voting storeXY "g" "T" (fun _ => true) true).2.1) "g" "T"
        (fun _ => true) true
        = (false, (close_voting storeXY "g" "T" (fun _ => true) true).2.1, []) ∧
    (process_vote ((close_voting storeXY "g" "T" (fun _ => true) true).2.1)
        "Z" "g" "T" 0 "s9" "e9").1 = true ∧
    storeLookup (process_vote ((close_voting storeXY "g" "T" (fun _ => true) true).2.1)
        "Z" "g" "T" 0 "s9" "e9").2 (voteKey "g" "T")
        = some (applyVote ⟨"T", [], []⟩ "Z" 0 "s9" "e9") :=
  claim_C9_teardown_finality storeXY "g" "T" (fun _ => true) true (by decide)
    (fun _ => true) true "Z" 0 "s9" "e9"

/-! ### C10: out-of-range ballots -/

/-- The recorded ballot is in the updated ballot map. -/
theorem updateVote_mem (votes : List (String × Nat)) (u : String) (idx : Nat) :
    (u, idx) ∈ updateVote votes u idx := by
  induction votes with
  | nil => exact List.mem_cons_self _ _
  | cons p rest ih =>
    obtain ⟨a, b⟩ := p
    by_cases ha : a = u
    · simp [updateVote, ha]
    · simpa [updateVote, ha] using Or.inr ih

/-- C10.  `process_vote` accepts any `option_index ≥ len(options)` but
appends only one option, so an index strictly above the current option
count leaves the stored session with a ballot at or beyond the new option
count; and `close_voting` on any session holding such an out-of-range
ballot fails (the tally raises `IndexError`) with the store unchanged, so
the poll stays open. -/
theorem claim_C10_out_of_range_ballot :
    (∀ (store : Store) (u g t : String) (idx : Nat) (s e : String)
        (sess : VotingSession),
      storeLookup store (voteKey g t) = some sess →
      sess.options.length < idx →
      (process_vote store u g t idx s e).1 = true ∧
      storeLookup (process_vote store u g t idx s e).2 (voteKey g t)
          = some (applyVote sess u idx s e) ∧
      (applyVote sess u idx s e).options.length = sess.options.length + 1 ∧
      (u, idx) ∈ (applyVote sess u idx s e).votes ∧
      (applyVote sess u idx s e).options.length ≤ idx) ∧
    (∀ (store : Store) (g t : String) (regOk : String → Bool) (nOk : Bool)
        (sess : VotingSession),
      storeLookup store (voteKey g t) = some sess →
      (∃ p ∈ sess.votes, sess.options.length ≤ p.2) →
      (close_voting store g t regOk nOk).1 = false ∧
      (close_voting store g t regOk nOk).2.1 = store) := by
  constructor
  · intro store u g t idx s e sess hl hidx
    have happ : sess.options.length ≤ idx := le_of_lt hidx
    have hopts : (applyVote sess u idx s e).options = sess.options ++ [(s, e)] := by
      simp [applyVote, happ]
    have hvotes : (applyVote sess u idx s e).votes
        = updateVote sess.votes u idx := by
      simp [applyVote, happ]
    refine ⟨rfl, ?_, ?_, ?_, ?_⟩
    · show storeLookup
          (storeInsert _ (voteKey g t)
            (applyVote ((storeLookup _ (voteKey g t)).getD ⟨t, [], []⟩) u idx s e))
          (voteKey g t) = _
      rw [hl]
      exact storeLookup_insert_self _ _ _
    · rw [hopts, List.length_append, List.length_cons, List.length_nil]
    · rw [hvotes]
      exact updateVote_mem sess.votes u idx
    · rw [hopts, List.length_append, List.length_cons, List.length_nil]
      omega
  · intro store g t regOk nOk sess hl hex
    have ht : closeTally sess = none := closeTally_oob sess hex
    constructor <;> simp [close_voting, hl, ht]

/-- C10, witnessed: voting index 5 against a one-option session leaves an
out-of-range ballot, and closing such a session fails with the store
unchanged. -/
theorem claim_C10_witness :
    ((process_vote [(voteKey "g" "T", ⟨"T", [("s0", "e0")], [("X", 0)]⟩)]
        "Y" "g" "T" 5 "s1" "e1").1 = true ∧
      storeLookup (process_vote [(voteKey "g" "T", ⟨"T", [("s0", "e0")], [("X", 0)]⟩)]
          "Y" "g" "T" 5 "s1" "e1").2 (voteKey "g" "T")
        = some (applyVote ⟨"T", [("s0", "e0")], [("X", 0)]⟩ "Y" 5 "s1" "e1") ∧
      (applyVote ⟨"T", [("s0", "e0")], [("X", 0)]⟩ "Y" 5 "s1" "e1").options.length = 2 ∧
      ("Y", 5) ∈ (applyVote ⟨"T", [("s0", "e0")], [("X", 0)]⟩ "Y" 5 "s1" "e1").votes ∧
      (applyVote ⟨"T", [("s0", "e0")], [("X", 0)]⟩ "Y" 5 "s1" "e1").options.length ≤ 5) ∧
    ((close_voting [(voteKey "g" "T", ⟨"T", [("s0", "e0"), ("s1", "e1")], [("X", 0), ("Y", 5)]⟩)]
        "g" "T" (fun _ => true) true).1 = false ∧
      (close_voting [(voteKey "g" "T", ⟨"T", [("s0", "e0"), ("s1", "e1")], [("X", 0), ("Y", 5)]⟩)]
        "g" "T" (fun _ => true) true).2.1
        = [(voteKey "g" "T", ⟨"T", [("s0", "e0"), ("s1", "e1")], [("X", 0), ("Y", 5)]⟩)]) :=
  ⟨(claim_C10_out_of_range_ballot.1 [(voteKey "g" "T", ⟨"T", [("s0", "e0")], [("X", 0)]⟩)]
      "Y" "g" "T" 5 "s1" "e1" ⟨"T", [("s0", "e0")], [("X", 0)]⟩ (by decide) (by decide)),
   (claim_C10_out_of_range_ballot.2
      [(voteKey "g" "T", ⟨"T", [("s0", "e0"), ("s1", "e1")], [("X", 0), ("Y", 5)]⟩)]
      "g" "T" (fun _ => true) true ⟨"T", [("s0", "e0"), ("s1", "e1")], [("X", 0), ("Y", 5)]⟩
      (by decide) ⟨("Y", 5), by decide, by decide⟩)⟩

/-! ### C7: key independence and the delimiter collision -/

/-- C7 amended.  Sessions are independent whenever the derived store keys
`group_id ++ "_" ++ event_title` differ: `process_vote` and `close_voting`
for one key leave the session looked up under the other key unchanged. -/
theorem claim_C7_amended_key_independence (store : Store) (g t g' t' : String)
    (hk : voteKey g t ≠ voteKey g' t')
    (u : String) (idx : Nat) (s e : String) (regOk : String → Bool) (nOk : Bool) :
    storeLookup (process_vote store u g t idx s e).2 (voteKey g' t')
        = storeLookup store (voteKey g' t') ∧
    storeLookup (close_voting store g t regOk nOk).2.1 (voteKey g' t')
        = storeLookup store (voteKey g' t') := by
  constructor
  · show storeLookup (storeInsert store (voteKey g t) _) (voteKey g' t') = _
    exact storeLookup_insert_ne _ _ _ _ hk
  · rcases close_voting_cases store g t regOk nOk with ⟨-, hst⟩ | ⟨-, hst⟩
    · rw [hst]
      exact storeLookup_erase_ne _ _ _ hk
    · rw [hst]

/-- C7 amended, witnessed at two keys with distinct derivations. -/
theorem claim_C7_amended_witness :
    storeLookup (process_vote storeXY "u1" "g2" "T" 0 "s" "e").2 (voteKey "g" "T")
        = storeLookup storeXY (voteKey "g" "T") ∧
    storeLookup (close_voting storeXY "g2" "T" (fun _ => true) true).2.1 (voteKey "g" "T")
        = storeLookup storeXY (voteKey "g" "T") :=
  claim_C7_amended_key_independence storeXY "g2" "T" "g" "T" (by decide)
    "u1" 0 "s" "e" (fun _ => true) true

/-- C7 counterexample.  The composite keys `("a", "b_c")` and
`("a_b", "c")` are distinct, yet both derive the store key `"a_b_c"`:
after a vote under the first key, the session stored under the second key
has changed — sessions for distinct composite keys are NOT independent. -/
theorem claim_C7_counterexample :
    ("a", "b_c") ≠ (("a_b", "c") : String × String) ∧
    voteKey "a" "b_c" = voteKey "a_b" "c" ∧
    storeLookup (process_vote [] "u1" "a_b" "c" 0 "s" "e").2 (voteKey "a_b" "c")
        = some ⟨"c", [("s", "e")], [("u1", 0)]⟩ ∧
    storeLookup
        (process_vote (process_vote [] "u1" "a_b" "c" 0 "s" "e").2
          "u2" "a" "b_c" 1 "s2" "e2").2
        (voteKey "a_b" "c")
        ≠ some ⟨"c", [("s", "e")], [("u1", 0)]⟩ := by
  decide

/-! ### C5: busy marking -/

/-- Marking never changes a slot's endpoints. -/
theorem markSlot_start_stop (ev : CalEvent) (sl : Slot) :
    (markSlot ev sl).start = sl.start ∧ (markSlot ev sl).stop = sl.stop := by
  unfold markSlot
  split <;> exact ⟨rfl, rfl⟩

/-- The event-major marking loop acts on each slot independently. -/
theorem markSlots_map (events : List CalEvent) (slots : List Slot) :
    markSlots events slots
      = slots.map (fun sl => events.foldl (fun s ev => markSlot ev s) sl) := by
  induction events generalizing slots with
  | nil => simp [markSlots]
  | cons ev rest ih =>
    show markSlots rest (slots.map (markSlot ev)) = _
    rw [ih, List.map_map]
    rfl

/-- Folding all events over one slot: the slot stays available exactly when
it was available and no event strictly overlaps it. -/
theorem foldl_markSlot_available (events : List CalEvent) :
    ∀ sl : Slot,
      (events.foldl (fun s ev => markSlot ev s) sl).available = true ↔
        (sl.available = true ∧
          ∀ ev ∈ events, ¬(sl.start < ev.stop ∧ ev.start < sl.stop)) := by
  induction events with
  | nil => intro sl; simp
  | cons ev rest ih =>
    intro sl
    rw [List.foldl_cons, ih (markSlot ev sl),
      (markSlot_start_stop ev sl).1, (markSlot_start_stop ev sl).2]
    by_cases hov : sl.start < ev.stop ∧ sl.stop > ev.start
    · have hav : (markSlot ev sl).available = false := by
        simp [markSlot, hov]
      constructor
      · rintro ⟨h1, -⟩
        rw [hav] at h1
        exact absurd h1 (by simp)
      · rintro ⟨-, h2⟩
        exact absurd ⟨hov.1, hov.2⟩ (h2 ev (List.mem_cons_self _ _))
    · have heq : markSlot ev sl = sl := by
        simp [markSlot, hov]
      rw [heq]
      constructor
      · rintro ⟨h1, h2⟩
        refine ⟨h1, fun e he => ?_⟩
        rcases List.mem_cons.mp he with rfl | he'
        · exact fun hc => hov ⟨hc.1, hc.2⟩
        · exact h2 e he'
      · rintro ⟨h1, h2⟩
        exact ⟨h1, fun e he => h2 e (List.mem_cons_of_mem _ he)⟩

/-- C5.  A slot of the grid (initially available) ends up marked
unavailable if and only if `slot.start < event.end ∧ slot.end > event.start`
holds for some event of some participant — half-open-interval overlap, so
an event ending exactly at the slot's start does not mark it, and one busy
participant makes the slot busy for the whole group. -/
theorem claim_C5_busy_marking (participants : List (List CalEvent)) (slots : List Slot)
    (i : Nat) (hi : i < slots.length)
    (hav : (slots.getD i dummySlot).available = true) :
    ((markSlots (allEvents participants) slots).getD i dummySlot).available = false ↔
      ∃ evs ∈ participants, ∃ ev ∈ evs,
        (slots.getD i dummySlot).start < ev.stop ∧
        ev.start < (slots.getD i dummySlot).stop := by
  have hmap : (markSlots (allEvents participants) slots).getD i dummySlot
      = (allEvents participants).foldl (fun s ev => markSlot ev s)
          (slots.getD i dummySlot) := by
    rw [markSlots_map, List.getD_eq_getElem _ _ (by simpa using hi),
      List.getElem_map, List.getD_eq_getElem _ _ hi]
  rw [hmap]
  have hiff := foldl_markSlot_available (allEvents participants) (slots.getD i dummySlot)
  constructor
  · intro hfalse
    by_contra hno
    push_neg at hno
    have : (slots.getD i dummySlot).available = true ∧
        ∀ ev ∈ allEvents participants,
          ¬((slots.getD i dummySlot).start < ev.stop ∧
            ev.start < (slots.getD i dummySlot).stop) := by
      refine ⟨hav, fun ev hev => ?_⟩
      rintro ⟨h1, h2⟩
      obtain ⟨evs, hevs, hev'⟩ := List.mem_flatten.mp hev
      exact absurd h2 (by simpa using hno evs hevs ev hev' h1)
    rw [hiff.mpr this] at hfalse
    exact absurd hfalse (by simp)
  · rintro ⟨evs, hevs, ev, hev, h1, h2⟩
    cases hres : ((allEvents participants).foldl (fun s ev => markSlot ev s)
        (slots.getD i dummySlot)).available with
    | false => rfl
    | true =>
      obtain ⟨-, hall⟩ := hiff.mp hres
      exact absurd ⟨h1, h2⟩
        (hall ev (List.mem_flatten.mpr ⟨evs, hevs, hev⟩))

/-- C5 witnessed at an exact boundary: an event ending at 09:30 does not
mark the 09:30–10:00 slot, while an event crossing into it does. -/
theorem claim_C5_witness :
    (((markSlots (allEvents [[⟨500, 570⟩]]) [⟨570, 600, true⟩]).getD 0
        dummySlot).available = false ↔
      ∃ evs ∈ [[(⟨500, 570⟩ : CalEvent)]], ∃ ev ∈ evs,
        (([⟨570, 600, true⟩] : List Slot).getD 0 dummySlot).start < ev.stop ∧
        ev.start < (([⟨570, 600, true⟩] : List Slot).getD 0 dummySlot).stop) ∧
    ((markSlots (allEvents [[⟨500, 570⟩]]) [⟨570, 600, true⟩]).getD 0
        dummySlot).available = true :=
  ⟨claim_C5_busy_marking [[⟨500, 570⟩]] [⟨570, 600, true⟩] 0 (by decide) (by decide),
   by decide⟩

/-! ### C6: slot generation partitions the working windows -/

/-- Closed form of the inner slot loop over a window of `n` slots. -/
theorem daySlotsAux_eq (n : Nat) :
    ∀ s : Nat, daySlotsAux (s + 30 * n) s
      = (List.range n).map (fun j => ⟨s + 30 * j, s + 30 * j + 30, true⟩) := by
  induction n with
  | zero =>
    intro s
    rw [daySlotsAux]
    simp
  | succ n ih =>
    intro s
    rw [daySlotsAux, if_pos (by omega)]
    have h1 : s + 30 * (n + 1) = (s + 30) + 30 * n := by omega
    rw [h1, ih (s + 30), List.range_succ_eq_map, List.map_cons, List.map_map]
    congr 1
    refine List.map_congr_left ?_
    intro j hj
    simp only [Function.comp_apply, Slot.mk.injEq]
    refine ⟨by omega, by omega, trivial⟩

/-- The 18 working-window slots of the day containing `t`. -/
theorem daySlots_eq (t : Nat) :
    daySlots t = (List.range 18).map
      (fun j => ⟨dayStart t + 30 * j, dayStart t + 30 * j + 30, true⟩) := by
  have h : dayEnd t = dayStart t + 30 * 18 := by
    unfold dayStart dayEnd
    omega
  rw [daySlots, h, daySlotsAux_eq]

/-- Every slot of a day is one of its 18 window slots. -/
theorem daySlots_shape (t : Nat) (sl : Slot) (h : sl ∈ daySlots t) :
    ∃ j, j < 18 ∧ sl = ⟨dayStart t + 30 * j, dayStart t + 30 * j + 30, true⟩ := by
  rw [daySlots_eq] at h
  obtain ⟨j, hj, hfe⟩ := List.mem_map.mp h
  exact ⟨j, List.mem_range.mp hj, hfe.symm⟩

/-- Every slot the day loop generates starts at or after 09:00 of the
current day. -/
theorem genSlotsAux_start_lb (n : Nat) :
    ∀ cur : Nat, ∀ sl ∈ genSlotsAux n cur, dayStart cur ≤ sl.start := by
  induction n with
  | zero =>
    intro cur sl h
    exact absurd h (List.not_mem_nil sl)
  | succ n ih =>
    intro cur sl h
    rcases List.mem_append.mp h with h1 | h2
    · by_cases hw : weekday cur < 5
      · rw [if_pos hw] at h1
        obtain ⟨j, hj, rfl⟩ := daySlots_shape cur sl h1
        show dayStart cur ≤ dayStart cur + 30 * j
        omega
      · rw [if_neg hw] at h1
        exact absurd h1 (List.not_mem_nil sl)
    · have hlb := ih (cur + 1440) sl h2
      have hd : dayStart (cur + 1440) = dayStart cur + 1440 := by
        unfold dayStart
        omega
      omega

/-- Every generated slot is a 30-minute, initially-available slot of a
weekday's working window. -/
theorem genSlotsAux_shape (n : Nat) :
    ∀ cur : Nat, ∀ sl ∈ genSlotsAux n cur,
      sl.stop = sl.start + 30 ∧ sl.available = true ∧ weekday sl.start < 5 := by
  induction n with
  | zero =>
    intro cur sl h
    exact absurd h (List.not_mem_nil sl)
  | succ n ih =>
    intro cur sl h
    rcases List.mem_append.mp h with h1 | h2
    · by_cases hw : weekday cur < 5
      · rw [if_pos hw] at h1
        obtain ⟨j, hj, rfl⟩ := daySlots_shape cur sl h1
        refine ⟨rfl, rfl, ?_⟩
        have hdiv : (dayStart cur + 30 * j) / 1440 = cur / 1440 := by
          unfold dayStart
          omega
        unfold weekday at hw ⊢
        rw [hdiv]
        exact hw
      · rw [if_neg hw] at h1
        exact absurd h1 (List.not_mem_nil sl)
    · exact ih (cur + 1440) sl h2

/-- The generated slot sequence is chronological with non-overlapping
slots. -/
theorem genSlotsAux_pairwise (n : Nat) :
    ∀ cur : Nat, (genSlotsAux n cur).Pairwise (fun a b => a.stop ≤ b.start) := by
  induction n with
  | zero => intro cur; exact List.Pairwise.nil
  | succ n ih =>
    intro cur
    rw [genSlotsAux, List.pairwise_append]
    refine ⟨?_, ih (cur + 1440), ?_⟩
    · by_cases hw : weekday cur < 5
      · rw [if_pos hw, daySlots_eq, List.pairwise_map]
        refine List.Pairwise.imp ?_ (List.pairwise_lt_range 18)
        intro a b hab
        show dayStart cur + 30 * a + 30 ≤ dayStart cur + 30 * b
        omega
      · rw [if_neg hw]
        exact List.Pairwise.nil
    · intro a ha b hb
      have hb' := genSlotsAux_start_lb n (cur + 1440) b hb
      have hd : dayStart (cur + 1440) = dayStart cur + 1440 := by
        unfold dayStart
        omega
      by_cases hw : weekday cur < 5
      · rw [if_pos hw] at ha
        obtain ⟨j, hj, rfl⟩ := daySlots_shape cur a ha
        show dayStart cur + 30 * j + 30 ≤ b.start
        omega
      · rw [if_neg hw] at ha
        exact absurd ha (List.not_mem_nil a)

/-- The minutes covered by the generated slots are exactly the
working-window minutes of the visited weekdays. -/
theorem genSlotsAux_coverage (n : Nat) :
    ∀ cur x : Nat,
      (∃ sl ∈ genSlotsAux n cur, sl.start ≤ x ∧ x < sl.stop) ↔
      (∃ k, k < n ∧ weekday (cur + 1440 * k) < 5 ∧
        dayStart (cur + 1440 * k) ≤ x ∧ x < dayEnd (cur + 1440 * k)) := by
  induction n with
  | zero =>
    intro cur x
    simp [genSlotsAux]
  | succ n ih =>
    intro cur x
    have hde : dayEnd cur = dayStart cur + 540 := by
      unfold dayStart dayEnd
      omega
    constructor
    · rintro ⟨sl, hmem, hx1, hx2⟩
      rcases List.mem_append.mp hmem with h1 | h2
      · by_cases hw : weekday cur < 5
        · rw [if_pos hw] at h1
          obtain ⟨j, hj, rfl⟩ := daySlots_shape cur sl h1
          refine ⟨0, by omega, by simpa using hw, ?_, ?_⟩
          · have : dayStart cur + 30 * j ≤ x := hx1
            simp only [Nat.mul_zero, Nat.add_zero]
            omega
          · have : x < dayStart cur + 30 * j + 30 := hx2
            simp only [Nat.mul_zero, Nat.add_zero]
            omega
        · rw [if_neg hw] at h1
          exact absurd h1 (List.not_mem_nil sl)
      · obtain ⟨k, hk, hw', hk1, hk2⟩ := (ih (cur + 1440) x).mp ⟨sl, h2, hx1, hx2⟩
        have harr : (cur + 1440) + 1440 * k = cur + 1440 * (k + 1) := by omega
        rw [harr] at hw' hk1 hk2
        exact ⟨k + 1, by omega, hw', hk1, hk2⟩
    · rintro ⟨k, hk, hw', hx1, hx2⟩
      cases k with
      | zero =>
        simp only [Nat.mul_zero, Nat.add_zero] at hw' hx1 hx2
        refine ⟨⟨dayStart cur + 30 * ((x - dayStart cur) / 30),
          dayStart cur + 30 * ((x - dayStart cur) / 30) + 30, true⟩, ?_, ?_, ?_⟩
        · apply List.mem_append_left
          rw [if_pos hw', daySlots_eq]
          refine List.mem_map.mpr ⟨(x - dayStart cur) / 30, List.mem_range.mpr ?_, rfl⟩
          omega
        · show dayStart cur + 30 * ((x - dayStart cur) / 30) ≤ x
          omega
        · show x < dayStart cur + 30 * ((x - dayStart cur) / 30) + 30
          omega
      | succ k =>
        have harr : cur + 1440 * (k + 1) = (cur + 1440) + 1440 * k := by omega
        rw [harr] at hw' hx1 hx2
        obtain ⟨sl, hmem, h1, h2⟩ := (ih (cur + 1440) x).mpr ⟨k, by omega, hw', hx1, hx2⟩
        exact ⟨sl, List.mem_append_right _ hmem, h1, h2⟩

/-- C6.  For any date range, the generated slot sequence consists of
30-minute, initially-available slots with `start < end`, all lying on
weekdays (zero slots on Saturday/Sunday), in chronological order without
overlaps; and the minutes they cover are exactly the 09:00–18:00
working-window minutes of the weekdays the day loop visits — a partition
with no gaps or overlaps. -/
theorem claim_C6_slot_partition (s e : Nat) :
    (∀ sl ∈ genSlots s e,
      sl.stop = sl.start + 30 ∧ sl.available = true ∧ sl.start < sl.stop ∧
        weekday sl.start < 5) ∧
    (genSlots s e).Pairwise (fun a b => a.stop ≤ b.start) ∧
    (∀ x : Nat,
      (∃ sl ∈ genSlots s e, sl.start ≤ x ∧ x < sl.stop) ↔
      (∃ k, k < numDays s e ∧ weekday (s + 1440 * k) < 5 ∧
        dayStart (s + 1440 * k) ≤ x ∧ x < dayEnd (s + 1440 * k))) := by
  refine ⟨?_, genSlotsAux_pairwise (numDays s e) s, genSlotsAux_coverage (numDays s e) s⟩
  intro sl hmem
  obtain ⟨h1, h2, h3⟩ := genSlotsAux_shape (numDays s e) s sl hmem
  exact ⟨h1, h2, by omega, h3⟩

/-- C6 witnessed over the two-day range Monday–Tuesday of epoch week one:
36 slots, all conclusions at `s = 4·1440`, `e = 6·1440`. -/
theorem claim_C6_witness :
    (∀ sl ∈ genSlots (4 * 1440) (6 * 1440),
      sl.stop = sl.start + 30 ∧ sl.available = true ∧ sl.start < sl.stop ∧
        weekday sl.start < 5) ∧
    (genSlots (4 * 1440) (6 * 1440)).Pairwise (fun a b => a.stop ≤ b.start) ∧
    (∀ x : Nat,
      (∃ sl ∈ genSlots (4 * 1440) (6 * 1440), sl.start ≤ x ∧ x < sl.stop) ↔
      (∃ k, k < numDays (4 * 1440) (6 * 1440) ∧ weekday (4 * 1440 + 1440 * k) < 5 ∧
        dayStart (4 * 1440 + 1440 * k) ≤ x ∧ x < dayEnd (4 * 1440 + 1440 * k))) :=
  claim_C6_slot_partition (4 * 1440) (6 * 1440)

/-! ### C2: the sliding-window scan -/

/-- The inner consecutive-availability check, as a proposition. -/
theorem slotsAvailableFrom_iff (slots : List Slot) (i required : Nat) :
    slotsAvailableFrom slots i required = true ↔
      ∀ j, j < required → i + j < slots.length ∧
        (slots.getD (i + j) dummySlot).available = true := by
  unfold slotsAvailableFrom
  rw [List.all_eq_true]
  constructor
  · intro h j hj
    have := h j (List.mem_range.mpr hj)
    simpa using this
  · intro h j hj
    obtain ⟨h1, h2⟩ := h j (List.mem_range.mp hj)
    rw [List.getD_eq_getElem _ _ h1] at h2
    simp [h1, h2]

/-- On a sorted 30-minute grid, starts grow by at least 30 per step. -/
theorem start_chain (slots : List Slot)
    (h30 : ∀ sl ∈ slots, sl.stop = sl.start + 30)
    (hsort : slots.Pairwise (fun a b => a.stop ≤ b.start)) :
    ∀ i k, i + k < slots.length →
      (slots.getD i dummySlot).start + 30 * k ≤ (slots.getD (i + k) dummySlot).start := by
  intro i k
  induction k with
  | zero =>
    intro h
    simp
  | succ k ih =>
    intro h
    have h1 : i + k < slots.length := by omega
    have h2 := ih h1
    have hp := List.pairwise_iff_getElem.mp hsort (i + k) (i + k + 1)
      h1 (by omega) (by omega)
    have h3 : slots[i + k].stop = slots[i + k].start + 30 :=
      h30 slots[i + k] (List.getElem_mem h1)
    have hgd1 : slots.getD (i + k) dummySlot = slots[i + k] :=
      List.getD_eq_getElem _ _ h1
    have hgd2 : slots.getD (i + (k + 1)) dummySlot = slots[i + k + 1] := by
      rw [show i + (k + 1) = i + k + 1 from by omega]
      exact List.getD_eq_getElem _ _ (by omega)
    rw [hgd1] at h2
    rw [hgd2]
    omega

/-- C2 counterexample.  For duration 45 over one available then one
unavailable slot, the scan requires `45 // 30 = 1` consecutive slot rather
than `ceil(45/30) = 2` and reports the window `[0, 45)`: that window
overlaps the unavailable slot `[30, 60)`, and no reported window spans two
consecutive available slots — both parts of the claim fail. -/
theorem claim_C2_counterexample :
    scanWindows [⟨0, 30, true⟩, ⟨30, 60, false⟩] 45 = [⟨0, 45⟩] ∧
    (45 + 29) / 30 = 2 ∧
    ¬(∀ w ∈ scanWindows [⟨0, 30, true⟩, ⟨30, 60, false⟩] 45,
        ∀ sl ∈ ([⟨0, 30, true⟩, ⟨30, 60, false⟩] : List Slot),
          sl.start < w.stop → w.start < sl.stop → sl.available = true) ∧
    ¬(∀ w ∈ scanWindows [⟨0, 30, true⟩, ⟨30, 60, false⟩] 45,
        ∃ i, i + 2 ≤ 2 ∧
          ∀ j, j < 2 → (([⟨0, 30, true⟩, ⟨30, 60, false⟩] : List Slot).getD (i + j)
            dummySlot).available = true) := by
  refine ⟨by decide, by decide, by decide, ?_⟩
  intro hall
  obtain ⟨i, hi, hav⟩ := hall ⟨0, 45⟩ (by decide)
  have h0 : i = 0 := by omega
  subst h0
  have := hav 1 (by omega)
  exact absurd this (by decide)

/-- The scan uses `required = duration / 30` (floor division).  For
positive multiples of 30, on a chronologically sorted 30-minute grid: a
window is reported exactly for each start index whose `duration / 30`
consecutive slots all exist and are available, windows are chronological,
and no reported window overlaps an unavailable slot. -/
theorem scanWindows_spec (slots : List Slot) (duration : Nat)
    (hdur : 0 < duration) (hmul : duration % 30 = 0)
    (h30 : ∀ sl ∈ slots, sl.stop = sl.start + 30)
    (hsort : slots.Pairwise (fun a b => a.stop ≤ b.start)) :
    (∀ w : Window, w ∈ scanWindows slots duration ↔
      ∃ i, i + duration / 30 ≤ slots.length ∧
        (∀ j, j < duration / 30 → (slots.getD (i + j) dummySlot).available = true) ∧
        w.start = (slots.getD i dummySlot).start ∧
        w.stop = w.start + duration) ∧
    (scanWindows slots duration).Pairwise (fun a b => a.start < b.start) ∧
    (∀ w ∈ scanWindows slots duration, ∀ sl ∈ slots,
      sl.start < w.stop → w.start < sl.stop → sl.available = true) := by
  have hreq : 0 < duration / 30 := by omega
  have hreq' : duration / 30 ≠ 0 := by omega
  have hdd : 30 * (duration / 30) = duration := Nat.mul_div_cancel' ⟨duration / 30, by omega⟩
  have hscan : scanWindows slots duration =
      (List.range (slots.length + 1 - duration / 30)).filterMap fun i =>
        if slotsAvailableFrom slots i (duration / 30) then
          some ⟨(slots.getD i dummySlot).start, (slots.getD i dummySlot).start + duration⟩
        else none := by
    unfold scanWindows
    rw [if_neg hreq']
  have hmem : ∀ w : Window, w ∈ scanWindows slots duration ↔
      ∃ i, i + duration / 30 ≤ slots.length ∧
        (∀ j, j < duration / 30 → (slots.getD (i + j) dummySlot).available = true) ∧
        w.start = (slots.getD i dummySlot).start ∧
        w.stop = w.start + duration := by
    intro w
    rw [hscan, List.mem_filterMap]
    constructor
    · rintro ⟨i, hir, hif⟩
      have hcond : slotsAvailableFrom slots i (duration / 30) = true := by
        by_contra hc
        rw [if_neg (by simpa using hc)] at hif
        exact absurd hif (by simp)
      rw [if_pos hcond] at hif
      have hav := (slotsAvailableFrom_iff slots i (duration / 30)).mp hcond
      have hir' : i + duration / 30 ≤ slots.length := by
        have := List.mem_range.mp hir
        omega
      obtain rfl : (⟨(slots.getD i dummySlot).start,
          (slots.getD i dummySlot).start + duration⟩ : Window) = w :=
        Option.some_inj.mp hif
      exact ⟨i, hir', fun j hj => (hav j hj).2, rfl, rfl⟩
    · rintro ⟨i, hile, hav, hws, hwe⟩
      refine ⟨i, List.mem_range.mpr (by omega), ?_⟩
      have hcond : slotsAvailableFrom slots i (duration / 30) = true := by
        rw [slotsAvailableFrom_iff]
        exact fun j hj => ⟨by omega, hav j hj⟩
      rw [if_pos hcond]
      have : w = ⟨(slots.getD i dummySlot).start,
          (slots.getD i dummySlot).start + duration⟩ := by
        cases w
        simp only [Window.mk.injEq]
        simp only at hws hwe
        omega
      rw [this]
  refine ⟨hmem, ?_, ?_⟩
  · rw [hscan, List.pairwise_filterMap]
    refine List.Pairwise.imp ?_ (List.pairwise_lt_range _)
    intro a b hab w hw w' hw'
    by_cases hca : slotsAvailableFrom slots a (duration / 30) = true
    · by_cases hcb : slotsAvailableFrom slots b (duration / 30) = true
      · rw [if_pos hca] at hw
        rw [if_pos hcb] at hw'
        have ha : a < slots.length := by
          have := ((slotsAvailableFrom_iff slots a (duration / 30)).mp hca 0 hreq).1
          omega
        have hb : b < slots.length := by
          have := ((slotsAvailableFrom_iff slots b (duration / 30)).mp hcb 0 hreq).1
          omega
        have hp := List.pairwise_iff_getElem.mp hsort a b ha hb hab
        have h3 : slots[a].stop = slots[a].start + 30 :=
          h30 slots[a] (List.getElem_mem ha)
        have hwa : w.start = (slots.getD a dummySlot).start := by
          cases hw
          rfl
        have hwb : w'.start = (slots.getD b dummySlot).start := by
          cases hw'
          rfl
        rw [hwa, hwb, List.getD_eq_getElem _ _ ha, List.getD_eq_getElem _ _ hb]
        omega
      · rw [if_neg hcb] at hw'
        exact absurd hw' (by simp)
    · rw [if_neg hca] at hw
      exact absurd hw (by simp)
  · intro w hw sl hsl hov1 hov2
    obtain ⟨i, hile, hav, hws, hwe⟩ := (hmem w).mp hw
    obtain ⟨m, hm, hsleq⟩ := List.getElem_of_mem hsl
    subst hsleq
    have hi : i < slots.length := by omega
    rw [List.getD_eq_getElem _ _ hi] at hws
    rcases Nat.lt_or_ge m i with hlt | hge
    · have hp := List.pairwise_iff_getElem.mp hsort m i hm hi hlt
      exfalso
      omega
    · rcases Nat.lt_or_ge m (i + duration / 30) with hlt2 | hge2
      · have hin := hav (m - i) (by omega)
        rw [show i + (m - i) = m from by omega, List.getD_eq_getElem _ _ hm] at hin
        exact hin
      · have hchain := start_chain slots h30 hsort i (m - i)
          (by rw [show i + (m - i) = m from by omega]; exact hm)
        rw [show i + (m - i) = m from by omega, List.getD_eq_getElem _ _ hm,
          List.getD_eq_getElem _ _ hi] at hchain
        have h1 : duration ≤ 30 * (m - i) := by
          rw [← hdd]
          exact Nat.mul_le_mul_left 30 (by omega)
        exfalso
        omega

/-- The marking fold never moves a slot's endpoints. -/
theorem foldl_markSlot_start_stop (events : List CalEvent) :
    ∀ sl : Slot,
      (events.foldl (fun s ev => markSlot ev s) sl).start = sl.start ∧
      (events.foldl (fun s ev => markSlot ev s) sl).stop = sl.stop := by
  induction events with
  | nil => intro sl; exact ⟨rfl, rfl⟩
  | cons ev rest ih =>
    intro sl
    rw [List.foldl_cons]
    obtain ⟨h1, h2⟩ := ih (markSlot ev sl)
    exact ⟨h1.trans (markSlot_start_stop ev sl).1,
      h2.trans (markSlot_start_stop ev sl).2⟩

/-- C2 amended.  `find_available_times` computes
`required = duration // 30` — floor division, so a duration that is not a
multiple of 30 rounds DOWN, not up (see the counterexample).  For positive
durations that are multiples of 30 (for which floor and ceiling agree):
a window is reported exactly for each start index of the marked slot grid
whose `duration / 30` consecutive slots all exist and are available, every
qualifying start index yields one window, windows are chronological, and
no reported window overlaps an unavailable slot. -/
theorem claim_C2_amended_floor_windows (participants : List (List CalEvent))
    (s e duration : Nat) (hdur : 0 < duration) (hmul : duration % 30 = 0) :
    (∀ w : Window, w ∈ find_available_times participants s e duration ↔
      ∃ i, i + duration / 30 ≤ (markSlots (allEvents participants) (genSlots s e)).length ∧
        (∀ j, j < duration / 30 →
          ((markSlots (allEvents participants) (genSlots s e)).getD (i + j)
            dummySlot).available = true) ∧
        w.start = ((markSlots (allEvents participants) (genSlots s e)).getD i
          dummySlot).start ∧
        w.stop = w.start + duration) ∧
    (find_available_times participants s e duration).Pairwise
      (fun a b => a.start < b.start) ∧
    (∀ w ∈ find_available_times participants s e duration,
      ∀ sl ∈ markSlots (allEvents participants) (genSlots s e),
        sl.start < w.stop → w.start < sl.stop → sl.available = true) := by
  have hgrid30 : ∀ sl ∈ markSlots (allEvents participants) (genSlots s e),
      sl.stop = sl.start + 30 := by
    intro sl hm
    rw [markSlots_map] at hm
    obtain ⟨sl0, hsl0, rfl⟩ := List.mem_map.mp hm
    obtain ⟨h1, -, -⟩ := genSlotsAux_shape (numDays s e) s sl0 hsl0
    rw [(foldl_markSlot_start_stop (allEvents participants) sl0).1,
      (foldl_markSlot_start_stop (allEvents participants) sl0).2]
    exact h1
  have hsort : (markSlots (allEvents participants) (genSlots s e)).Pairwise
      (fun a b => a.stop ≤ b.start) := by
    rw [markSlots_map, List.pairwise_map]
    refine List.Pairwise.imp ?_ (genSlotsAux_pairwise (numDays s e) s)
    intro a b hab
    rw [(foldl_markSlot_start_stop (allEvents participants) a).2,
      (foldl_markSlot_start_stop (allEvents participants) b).1]
    exact hab
  exact scanWindows_spec (markSlots (allEvents participants) (genSlots s e)) duration
    hdur hmul hgrid30 hsort

/-- C2 amended, witnessed: no participants, the Monday of epoch week one,
duration 60. -/
theorem claim_C2_amended_witness :
    (∀ w : Window, w ∈ find_available_times [] (4 * 1440) (5 * 1440) 60 ↔
      ∃ i, i + 60 / 30 ≤ (markSlots (allEvents []) (genSlots (4 * 1440) (5 * 1440))).length ∧
        (∀ j, j < 60 / 30 →
          ((markSlots (allEvents []) (genSlots (4 * 1440) (5 * 1440))).getD (i + j)
            dummySlot).available = true) ∧
        w.start = ((markSlots (allEvents []) (genSlots (4 * 1440) (5 * 1440))).getD i
          dummySlot).start ∧
        w.stop = w.start + 60) ∧
    (find_available_times [] (4 * 1440) (5 * 1440) 60).Pairwise
      (fun a b => a.start < b.start) ∧
    (∀ w ∈ find_available_times [] (4 * 1440) (5 * 1440) 60,
      ∀ sl ∈ markSlots (allEvents []) (genSlots (4 * 1440) (5 * 1440)),
        sl.start < w.stop → w.start < sl.stop → sl.available = true) :=
  claim_C2_amended_floor_windows [] (4 * 1440) (5 * 1440) 60 (by decide) (by decide)

end GroupScheduler
